import Mathlib

/-!
Verification of the NFS enumeration module (`nxc/protocols/nfs.py`).

The Python module is shallowly embedded: the opaque remote NFS service
(readdirplus, access, mount) is modelled as an oracle of pure functions,
Python exceptions are modelled with `Except`/`Option` (a caught exception
that makes a Python function return `None` is modelled as `none`), byte
strings are modelled as `String`, and Python's arbitrary-precision
integers as `Nat`.
-/

/-- Result of one `nfs3.access(handle, flag, auth)` call, as consumed by
`get_permissions`: the call may raise (`exc`), return a response without a
usable `resok.access` field (`malformed`, making the chained
`.get("resok", {}).get("access", 0)` produce `0`), or return an access
mask `v` (`resok v`). -/
inductive AccessResp : Type where
  | exc : AccessResp
  | malformed : AccessResp
  | resok : Nat → AccessResp
deriving DecidableEq

/-- The three access responses the remote service gives for one file
handle: one per probed capability (read / modify / execute). -/
structure AccessOracle where
  read : AccessResp
  write : AccessResp
  exec : AccessResp
deriving DecidableEq

/-- `ACCESS3_READ` from pyNfsClient (RFC 1813). -/
def ACCESS3_READ : Nat := 1
/-- `ACCESS3_MODIFY` from pyNfsClient (RFC 1813). -/
def ACCESS3_MODIFY : Nat := 4
/-- `ACCESS3_EXECUTE` from pyNfsClient (RFC 1813). -/
def ACCESS3_EXECUTE : Nat := 32

/-- The value of `resp.get("resok", {}).get("access", 0)`: `none` when the
call raised, `some 0` on a malformed response, the mask otherwise. -/
def extractAccess : AccessResp → Option Nat
  | AccessResp.exc => none
  | AccessResp.malformed => some 0
  | AccessResp.resok v => some v

/-- `nfs.get_permissions`: three independent capability probes, each
wrapped in its own `try/except` that turns any raised exception into
`False`; a returned mask grants the capability only when it equals exactly
the requested constant (Python compares with `is`, which on these small
cached ints coincides with `==`). -/
def get_permissions (o : AccessOracle) : Bool × Bool × Bool :=
  (match extractAccess o.read with
   | none => false
   | some v => v == ACCESS3_READ,
   match extractAccess o.write with
   | none => false
   | some v => v == ACCESS3_MODIFY,
   match extractAccess o.exec with
   | none => false
   | some v => v == ACCESS3_EXECUTE)

/-- One entry of a `readdirplus` reply. `hasName` models `"name" in entry`;
`attrsPresent` models `entry.get("name_attributes", {}).get("present",
False)`; `attrType` models `entry["name_attributes"]["attributes"]["type"]`
(`1` file, `2` directory); `handle` models
`entry["name_handle"]["handle"]["data"]`; `nextentry` is the sibling
chain (`entry["nextentry"]`, an empty list being falsy). -/
inductive DirEntry : Type where
  | mk : Bool → String → Bool → Nat → Nat → List DirEntry → DirEntry

/-- `"name" in entry`. -/
def DirEntry.hasName : DirEntry → Bool
  | DirEntry.mk b _ _ _ _ _ => b

/-- `entry["name"]`, decoded. -/
def DirEntry.name : DirEntry → String
  | DirEntry.mk _ s _ _ _ _ => s

/-- `entry.get("name_attributes", {}).get("present", False)`. -/
def DirEntry.attrsPresent : DirEntry → Bool
  | DirEntry.mk _ _ b _ _ _ => b

/-- `entry["name_attributes"]["attributes"]["type"]`. -/
def DirEntry.attrType : DirEntry → Nat
  | DirEntry.mk _ _ _ t _ _ => t

/-- `entry["name_handle"]["handle"]["data"]`. -/
def DirEntry.handle : DirEntry → Nat
  | DirEntry.mk _ _ _ _ h _ => h

/-- `entry["nextentry"]`. -/
def DirEntry.nextentry : DirEntry → List DirEntry
  | DirEntry.mk _ _ _ _ _ l => l

/-- Result of `nfs3.readdirplus(handle, auth)`: the call may raise
(`exc`), reply with `"resfail"` in the response, or reply with the entry
list `items["resok"]["reply"]["entries"]`. -/
inductive ReaddirResult : Type where
  | exc : ReaddirResult
  | resfail : ReaddirResult
  | ok : List DirEntry → ReaddirResult

/-- The remote filesystem as seen through one `auth` context: what
`readdirplus` answers for each handle, and what the three `access` probes
answer for each handle. -/
structure Fs where
  readdir : Nat → ReaddirResult
  acc : Nat → AccessOracle

/-- One element of the list built by `list_dir`:
`{"path": item_path, "read": r, "write": w, "execute": x}`. -/
structure WalkRecord where
  path : String
  read : Bool
  write : Bool
  execute : Bool
deriving DecidableEq

/-- `nfs.list_dir.process_entries(entries, path, recurse)`.

The whole loop body sits in one `try/except` whose handler logs and falls
off the end of the function, returning `None`: that caught-exception
outcome is modelled as `none`.  A raised exception and a nested call
returning `None` (which makes `contents += ...` raise `TypeError`) are
therefore indistinguishable here, exactly as in the Python code, and both
short-circuit the whole call to `none`.

The recursive call `self.list_dir(dir_handle, item_path, recurse - 1)` is
inlined (its body is substituted, see `list_dir` and the lemma
`inlined_branch_eq_list_dir` below) so that the mutual recursion becomes a
single lexicographic recursion on `(recurse, entries)`; an exception
raised by that inner `list_dir` is caught here, i.e. becomes `none`. -/
def process_entries (fs : Fs) (entries : List DirEntry) (path : String) (recurse : Nat) :
    Option (List WalkRecord) :=
  match entries with
  | [] => some []
  | DirEntry.mk hasNm nm attrsP attrT hdl next :: rest =>
    let own : Option (List WalkRecord) :=
      if hasNm && nm != "." && nm != ".." then
        let item_path := path ++ "/" ++ nm
        if attrsP then
          if h2 : attrT = 2 ∧ recurse ≠ 0 then
            -- inlined body of `self.list_dir(dir_handle, item_path, recurse - 1)`
            if recurse - 1 = 0 then
              let p := get_permissions (fs.acc hdl)
              some [⟨item_path ++ "/", p.1, p.2.1, p.2.2⟩]
            else
              match fs.readdir hdl with
              | ReaddirResult.exc => none
              | ReaddirResult.resfail => none
              | ReaddirResult.ok es => process_entries fs es item_path (recurse - 1)
          else
            let p := get_permissions (fs.acc hdl)
            some [⟨item_path, p.1, p.2.1, p.2.2⟩]
        else some []
      else some []
    match own with
    | none => none
    | some c1 =>
      match (if next.isEmpty then some [] else process_entries fs next path recurse) with
      | none => none
      | some c2 =>
        match process_entries fs rest path recurse with
        | none => none
        | some c3 => some (c1 ++ c2 ++ c3)
termination_by (recurse, sizeOf entries)
decreasing_by
  all_goals first
    | exact Prod.Lex.left _ _ (Nat.sub_lt (Nat.pos_of_ne_zero h2.2) Nat.one_pos)
    | (apply Prod.Lex.right
       simp
       omega)
    | (apply Prod.Lex.right
       simp)

/-- `nfs.list_dir(file_handle, path, recurse)`.  With `recurse == 0` it
probes the handle itself and returns one record; otherwise it issues
`readdirplus` — whose own exception propagates to the caller
(`Except.error`), a `"resfail"` reply raising
`Exception("Insufficient Permissions")` — and delegates to
`process_entries`. -/
def list_dir (fs : Fs) (file_handle : Nat) (path : String) (recurse : Nat) :
    Except String (Option (List WalkRecord)) :=
  if recurse = 0 then
    let p := get_permissions (fs.acc file_handle)
    Except.ok (some [⟨path ++ "/", p.1, p.2.1, p.2.2⟩])
  else
    match fs.readdir file_handle with
    | ReaddirResult.exc => Except.error "readdirplus transport error"
    | ReaddirResult.resfail => Except.error "Insufficient Permissions"
    | ReaddirResult.ok entries => Except.ok (process_entries fs entries path recurse)

/-- The branch inlined inside `process_entries` is exactly the Python call
`contents += self.list_dir(dir_handle, item_path, recurse - 1)` with the
raise-or-`None` outcomes collapsed to `none` by the surrounding
`try/except`. -/
theorem inlined_branch_eq_list_dir (fs : Fs) (hdl : Nat) (item_path : String) (k : Nat) :
    (if k = 0 then
        let p := get_permissions (fs.acc hdl)
        some [(⟨item_path ++ "/", p.1, p.2.1, p.2.2⟩ : WalkRecord)]
      else
        match fs.readdir hdl with
        | ReaddirResult.exc => none
        | ReaddirResult.resfail => none
        | ReaddirResult.ok es => process_entries fs es item_path k) =
      (match list_dir fs hdl item_path k with
       | Except.error _ => none
       | Except.ok o => o) := by
  by_cases hk : k = 0
  · simp [hk, list_dir]
  · simp only [hk, if_neg hk, list_dir, if_neg hk]
    cases fs.readdir hdl <;> rfl

/-- The unit tuple `("B", "KB", "MB", "GB", "TB", "PB", "EB", "ZB", "YB")`
of `convert_size`. -/
def size_name : List String := ["B", "KB", "MB", "GB", "TB", "PB", "EB", "ZB", "YB"]

/-- The two binary64 floating-point computations inside `convert_size`,
treated as an oracle because their exact values are platform `libm`
behaviour that a shallow embedding cannot pin down: `ilog b` is
`i = int(math.floor(math.log(b, 1024)))` (for `b ≥ 1`), and
`round10 b p` is `round(b / p, 1)` scaled by ten (that scaled value is
what the f-string prints as `"<int>.<digit>"`).  `p = math.pow(1024, i)`
itself is a power of two up to `2 ^ 80`, hence exactly representable in
binary64 and modelled exactly as `1024 ^ i`. -/
structure FloatOracle where
  ilog : Nat → Nat
  round10 : Nat → Nat → Nat

/-- Conservative error band on the unit index: the index chosen by
binary64 `floor(log(b) / log(1024))` is the floor of a value whose
relative error is around `1e-13`, so it certainly satisfies this 1%-slack
band, `1024 ^ ilog b ≤ 1.01 * b` and `b ≤ 1.01 * 1024 ^ (ilog b + 1)`,
written with integer arithmetic.  The band deliberately leaves the index
undetermined in a narrow window around each power of 1024 — exactly
where the float computation is at the mercy of rounding (e.g. CPython
already yields index 9 at `1024 ^ 9 - 1` and index 7 at `1024 ^ 7 - 1`). -/
def IlogApprox (ilog : Nat → Nat) : Prop :=
  ∀ b : Nat, 0 < b →
    100 * 1024 ^ ilog b ≤ 101 * b ∧ 100 * b ≤ 101 * 1024 ^ (ilog b + 1)

/-- Conservative error band on the rounded mantissa: `round(b / p, 1)`
differs from the exact rational `b / p` by at most `0.05` plus binary64
division noise, so ten times it is within `0.51` of `10 * b / p`; the
band is written with integer arithmetic (scaled by `100 * p`). -/
def Round10Approx (round10 : Nat → Nat → Nat) : Prop :=
  ∀ b p : Nat, 0 < p →
    100 * round10 b p * p ≤ 1000 * b + 51 * p ∧
    1000 * b ≤ 100 * round10 b p * p + 51 * p

/-- Reference rounding: exact half-even rounding of the rational
`10 * b / p`.  This is only a concrete instantiation lying inside
`Round10Approx` (as Python's binary64 `round(b / p, 1)` also does — the
two may differ at half-way or representation-boundary cases); claims are
proved against every oracle in the band, not against this instance. -/
def roundTenths (size p : Nat) : Nat :=
  let n := 10 * size
  let q := n / p
  let r := n % p
  if 2 * r < p then q
  else if p < 2 * r then q + 1
  else if q % 2 = 0 then q else q + 1

/-- `convert_size(size_bytes)` over a given float oracle: the zero case,
then `i = int(math.floor(math.log(size_bytes, 1024)))`,
`s = round(size_bytes / p, 1)`, and the f-string
`f"{s}{size_name[i]}"` which renders `s` as `"<int>.<digit>"` and raises
`IndexError` (modelled as `none`) when `i ≥ 9`. -/
def convert_size (fo : FloatOracle) (size_bytes : Nat) : Option String :=
  if size_bytes = 0 then some "0B"
  else
    let i := fo.ilog size_bytes
    match size_name[i]? with
    | none => none
    | some u =>
      let p := 1024 ^ i
      let s10 := fo.round10 size_bytes p
      some (toString (s10 / 10) ++ "." ++ toString (s10 % 10) ++ u)

/-- Reference float oracle: exact integer logarithm and exact half-even
rounding.  Used only to obtain closed, fully evaluable instances of
statements that are proved for every oracle in the error bands. -/
def refFloat : FloatOracle :=
  ⟨fun b => Nat.log 1024 b, roundTenths⟩

/-- Events sent to the reporting sink (`self.logger`). -/
inductive LogEvent : Type where
  | display : String → LogEvent
  | debugMsg : String → LogEvent
  | success : String → LogEvent
  | highlight : String → LogEvent
  | fail : String → LogEvent
  | exception : String → LogEvent
deriving DecidableEq

/-- `needle in haystack` on Python strings, via character lists:
`hasSubList n h` holds when `n` occurs contiguously in `h`. -/
def isPrefixOfList : List Char → List Char → Bool
  | [], _ => true
  | _ :: _, [] => false
  | c :: cs, d :: ds => c == d && isPrefixOfList cs ds

/-- Substring occurrence on character lists. -/
def hasSubList (needle : List Char) : List Char → Bool
  | [] => needle.isEmpty
  | d :: ds => isPrefixOfList needle (d :: ds) || hasSubList needle ds

/-- Python `needle in hay` for strings. -/
def containsSub (hay needle : String) : Bool :=
  hasSubList needle.data hay.data

/-- The message of the exception reaching the `except` block of
`list_exported_shares` when the walk itself failed. -/
def nfsErrMsg : String → String := id

/-- Python `repr` of one `contents` dict as interpolated by
`f"\tUID: {uid} {content}"`. -/
def pyBool : Bool → String
  | true => "True"
  | false => "False"

/-- `repr` of the record dict. -/
def pyDictRepr (c : WalkRecord) : String :=
  "\x7b\x27path\x27: \x27" ++ c.path ++ "\x27, \x27read\x27: " ++ pyBool c.read ++
    ", \x27write\x27: " ++ pyBool c.write ++ ", \x27execute\x27: " ++ pyBool c.execute ++ "\x7d"

/-- The highlighted line `f"\tUID: {self.auth['uid']} {content}"`. -/
def content_line (uid : Nat) (c : WalkRecord) : String :=
  "\tUID: " ++ toString uid ++ " " ++ pyDictRepr c

/-- The `except` block of `list_exported_shares`: classification of the
failure message, executed only under `if not max_uid:` — i.e. all failure
reporting is emitted only when `max_uid == 0`. -/
def classify_failure (max_uid : Nat) (share msg : String) : List LogEvent :=
  if max_uid = 0 then
    if containsSub msg "RPC_AUTH_ERROR: AUTH_REJECTEDCRED" then
      [LogEvent.fail (share ++ " - RPC Access denied")]
    else if containsSub msg "RPC_AUTH_ERROR: AUTH_TOOWEAK" then
      [LogEvent.fail (share ++ " - Kerberos authentication required")]
    else if containsSub msg "Insufficient Permissions" then
      [LogEvent.fail (share ++ " - Insufficient Permissions for share listing")]
    else [LogEvent.exception (share ++ " - " ++ msg)]
  else []

/-- The remote environment driving `list_exported_shares`: what
`self.mount.mnt(share, auth)` yields at each UID (`auth["uid"]` is the
only mutated field) and the filesystem view `list_dir` sees at each UID. -/
structure BruteEnv where
  mnt : Nat → String → Except String Nat
  fs : Nat → Fs

/-- The body of the `for share in shares` loop for one share that is not
yet whitelisted: mount, walk, append to the whitelist, report.  Returns
whether the share was whitelisted, plus the emitted events.  When
`list_dir` returns `None` (swallowed walk error), the whitelist append and
`success` line still happen, and the subsequent `for content in contents:`
raises `TypeError`, which the `except` block classifies. -/
def attemptShare (env : BruteEnv) (recurse_depth max_uid uid : Nat) (share : String) :
    Bool × List LogEvent :=
  match env.mnt uid share with
  | Except.error msg => (false, classify_failure max_uid share msg)
  | Except.ok fhandle =>
    match list_dir (env.fs uid) fhandle share recurse_depth with
    | Except.error e => (false, classify_failure max_uid share (nfsErrMsg e))
    | Except.ok none =>
      (true, LogEvent.success share ::
        classify_failure max_uid share "\x27NoneType\x27 object is not iterable")
    | Except.ok (some contents) =>
      (true, LogEvent.success share ::
        contents.map (fun c => LogEvent.highlight (content_line uid c)))

/-- The `for share in shares:` loop at one UID.  Carries the whitelist;
returns the final whitelist, the emitted events, and the trace of
`(uid, share)` mount-and-walk attempts actually issued. -/
def share_loop (env : BruteEnv) (recurse_depth max_uid uid : Nat) :
    List String → List String → List String × List LogEvent × List (Nat × String)
  | [], wl => (wl, [], [])
  | s :: rest, wl =>
    if s ∈ wl then
      let r := share_loop env recurse_depth max_uid uid rest wl
      (r.1, LogEvent.debugMsg ("Skipping " ++ s ++ " as it is already listed.") :: r.2.1, r.2.2)
    else
      let a := attemptShare env recurse_depth max_uid uid s
      let wl1 := if a.1 then wl ++ [s] else wl
      let r := share_loop env recurse_depth max_uid uid rest wl1
      (r.1, a.2 ++ r.2.1, (uid, s) :: r.2.2)

/-- The `for uid in range(max_uid + 1):` loop. -/
def run_uids (env : BruteEnv) (recurse_depth max_uid : Nat) (shares : List String) :
    List Nat → List String → List String × List LogEvent × List (Nat × String)
  | [], wl => (wl, [], [])
  | u :: us, wl =>
    let r1 := share_loop env recurse_depth max_uid u shares wl
    let r2 := run_uids env recurse_depth max_uid shares us r1.1
    (r2.1, r1.2.1 ++ r2.2.1, r1.2.2 ++ r2.2.2)

/-- `nfs.list_exported_shares(max_uid, shares, recurse_depth)`.
`args_uid_brute` is `self.args.uid_brute` (only its truthiness matters,
for the banner line).  Returns the emitted log events together with the
trace of `(uid, share)` mount-and-walk attempts. -/
def list_exported_shares (env : BruteEnv) (args_uid_brute max_uid : Nat)
    (shares : List String) (recurse_depth : Nat) : List LogEvent × List (Nat × String) :=
  let header := if args_uid_brute ≠ 0 then
      LogEvent.display ("Enumerating NFS Shares up to UID " ++ toString max_uid)
    else
      LogEvent.display ("Enumerating NFS Shares with UID " ++ toString max_uid)
  let r := run_uids env recurse_depth max_uid shares (List.range (max_uid + 1)) []
  (header :: r.2.1, r.2.2)

/-- A mount-and-walk attempt at `(uid, share)` that `list_exported_shares`
counts as a success (it whitelists the share and logs `success`): the
mount returns a handle and `list_dir` returns without raising. -/
def attemptSucceeds (env : BruteEnv) (recurse_depth uid : Nat) (share : String) : Prop :=
  ∃ fhandle, env.mnt uid share = Except.ok fhandle ∧
    ∃ o, list_dir (env.fs uid) fhandle share recurse_depth = Except.ok o

/-- The flattened sibling chain of a `readdirplus` reply: each entry
followed by its `nextentry` chain, in the order `process_entries` visits
them. -/
def chainEntries : List DirEntry → List DirEntry
  | [] => []
  | DirEntry.mk hasNm nm attrsP attrT hdl next :: rest =>
    DirEntry.mk hasNm nm attrsP attrT hdl next :: (chainEntries next ++ chainEntries rest)

/-! Section: Shared concrete fixtures -/

/-- An access oracle granting all three capabilities. -/
def oracleRWX : AccessOracle :=
  ⟨AccessResp.resok 1, AccessResp.resok 4, AccessResp.resok 32⟩

/-- One plain file entry named `a`. -/
def entsW1 : List DirEntry := [DirEntry.mk true "a" true 1 10 []]

/-- Filesystem whose every directory lists exactly the file `a`. -/
def fsW1 : Fs := ⟨fun _ => ReaddirResult.ok entsW1, fun _ => oracleRWX⟩

/-! Section: C5 — depth-0 walk -/

/-- C5: for every handle and path, `list_dir(handle, path, 0)` returns
exactly one record, whose path is the given path with `/` appended and
whose permission fields come from probing the handle itself; the right
hand side mentions only `fs.acc file_handle`, so the result is independent
of anything `readdirplus` would report about the directory contents. -/
theorem claim_C5 (fs : Fs) (file_handle : Nat) (path : String) :
    list_dir fs file_handle path 0 =
      Except.ok (some [⟨path ++ "/", (get_permissions (fs.acc file_handle)).1,
        (get_permissions (fs.acc file_handle)).2.1,
        (get_permissions (fs.acc file_handle)).2.2⟩]) := rfl

/-! Section: C3 — permission prober -/

/-- C3: `get_permissions` is a total function into complete triples (so it
never raises and never returns a partial result), each capability resolves
to `false` on remote failure, malformed response, or a mask different
from the requested one, and each component depends only on its own
capability's response: altering one probe's outcome cannot change the
other two components. -/
theorem claim_C3 (o o' : AccessOracle) :
    ((o.read = AccessResp.exc ∨ o.read = AccessResp.malformed ∨
        (∃ v, o.read = AccessResp.resok v ∧ v ≠ ACCESS3_READ)) →
      (get_permissions o).1 = false)
    ∧ ((o.write = AccessResp.exc ∨ o.write = AccessResp.malformed ∨
        (∃ v, o.write = AccessResp.resok v ∧ v ≠ ACCESS3_MODIFY)) →
      (get_permissions o).2.1 = false)
    ∧ ((o.exec = AccessResp.exc ∨ o.exec = AccessResp.malformed ∨
        (∃ v, o.exec = AccessResp.resok v ∧ v ≠ ACCESS3_EXECUTE)) →
      (get_permissions o).2.2 = false)
    ∧ (o.read = o'.read → (get_permissions o).1 = (get_permissions o').1)
    ∧ (o.write = o'.write → (get_permissions o).2.1 = (get_permissions o').2.1)
    ∧ (o.exec = o'.exec → (get_permissions o).2.2 = (get_permissions o').2.2) := by
  refine ⟨?_, ?_, ?_, ?_, ?_, ?_⟩
  · rintro (h | h | ⟨v, hv, hne⟩)
    · simp [get_permissions, extractAccess, h]
    · simp [get_permissions, extractAccess, h, ACCESS3_READ]
    · simp [get_permissions, extractAccess, hv, ACCESS3_READ]
      simpa [ACCESS3_READ] using hne
  · rintro (h | h | ⟨v, hv, hne⟩)
    · simp [get_permissions, extractAccess, h]
    · simp [get_permissions, extractAccess, h, ACCESS3_MODIFY]
    · simp [get_permissions, extractAccess, hv, ACCESS3_MODIFY]
      simpa [ACCESS3_MODIFY] using hne
  · rintro (h | h | ⟨v, hv, hne⟩)
    · simp [get_permissions, extractAccess, h]
    · simp [get_permissions, extractAccess, h, ACCESS3_EXECUTE]
    · simp [get_permissions, extractAccess, hv, ACCESS3_EXECUTE]
      simpa [ACCESS3_EXECUTE] using hne
  · intro h; simp [get_permissions, h]
  · intro h; simp [get_permissions, h]
  · intro h; simp [get_permissions, h]

/-- C3 witness: a raised read probe yields `read = false` on a concrete
oracle whose write and execute probes both grant. -/
theorem claim_C3_witness :
    (get_permissions ⟨AccessResp.exc, AccessResp.resok 4, AccessResp.resok 32⟩).1 = false :=
  (claim_C3 ⟨AccessResp.exc, AccessResp.resok 4, AccessResp.resok 32⟩
    ⟨AccessResp.exc, AccessResp.resok 4, AccessResp.resok 32⟩).1 (Or.inl rfl)

/-! Section: C10 — entry with absent attributes -/

/-- C10: a named, non-dot entry whose `name_attributes` are not present
contributes nothing: the walk result of its chain equals the combination
of just its `nextentry` chain and the remaining siblings (no record, no
permission probe), and is independent of the entry's type and handle
(so the entry is neither recursed into nor probed). -/
theorem claim_C10 (fs : Fs) (nm : String) (attrT hdl : Nat) (next rest : List DirEntry)
    (path : String) (recurse : Nat) (h1 : nm ≠ ".") (h2 : nm ≠ "..") :
    (process_entries fs (DirEntry.mk true nm false attrT hdl next :: rest) path recurse =
      match (if next.isEmpty then some [] else process_entries fs next path recurse) with
      | none => none
      | some c2 =>
        match process_entries fs rest path recurse with
        | none => none
        | some c3 => some (c2 ++ c3))
    ∧ ∀ attrT2 hdl2 : Nat,
        process_entries fs (DirEntry.mk true nm false attrT hdl next :: rest) path recurse =
          process_entries fs (DirEntry.mk true nm false attrT2 hdl2 next :: rest) path recurse := by
  have key : ∀ aT aH : Nat,
      process_entries fs (DirEntry.mk true nm false aT aH next :: rest) path recurse =
        match (if next.isEmpty then some [] else process_entries fs next path recurse) with
        | none => none
        | some c2 =>
          match process_entries fs rest path recurse with
          | none => none
          | some c3 => some (c2 ++ c3) := by
    intro aT aH
    rw [process_entries]
    simp only [h1, h2, bne_iff_ne, ne_eq, not_false_eq_true, Bool.true_and, Bool.and_self,
      decide_True, if_true, Bool.false_eq_true, if_false]
    cases hc2 : (if next.isEmpty then some [] else process_entries fs next path recurse) with
    | none => simp
    | some c2 =>
      cases hc3 : process_entries fs rest path recurse with
      | none => simp
      | some c3 => simp
  exact ⟨key attrT hdl, fun aT2 aH2 => (key attrT hdl).trans (key aT2 aH2).symm⟩

/-- C10 witness: the equation instantiated for a concrete attribute-less
entry `a` in an otherwise-empty chain. -/
theorem claim_C10_witness :
    process_entries fsW1 [DirEntry.mk true "a" false 1 5 []] "p" 1 =
      match (if ([] : List DirEntry).isEmpty then some [] else process_entries fsW1 [] "p" 1) with
      | none => none
      | some c2 =>
        match process_entries fsW1 [] "p" 1 with
        | none => none
        | some c3 => some (c2 ++ c3) :=
  (claim_C10 fsW1 "a" 1 5 [] [] "p" 1 (by decide) (by decide)).1

/-! Section: C1 — failure semantics of the sibling-chain walk -/

/-- Filesystem for the C1 counterexample: the root chain is the file `a`
followed (via `nextentry`) by the directory `bad`, and listing `bad`
replies `resfail`. -/
def fsC1 : Fs :=
  { readdir := fun h =>
      if h = 0 then
        ReaddirResult.ok [DirEntry.mk true "a" true 1 10 [DirEntry.mk true "bad" true 2 20 []]]
      else ReaddirResult.resfail,
    acc := fun _ => oracleRWX }

/-- C1 counterexample: at depth 2 the file `a` is collected first, then
the sibling subtree `bad` fails (`resfail`, i.e. the inner `list_dir`
raises `Insufficient Permissions`).  The claim says the walker returns the
records accumulated so far (the record for `share/a`); the code instead
returns `None` — the caught exception makes every enclosing
`process_entries` return `None`, discarding the sibling record. -/
theorem claim_C1_counterexample :
    list_dir fsC1 0 "share" 2 = Except.ok none ∧
      (Except.ok none : Except String (Option (List WalkRecord))) ≠
        Except.ok (some [(⟨"share/a", true, true, true⟩ : WalkRecord)]) := by
  constructor
  · simp [list_dir, fsC1, process_entries, get_permissions, extractAccess, oracleRWX]
  · simp

/-- C1 amended: once the top-level `readdirplus` of a `walk` call with
depth > 0 succeeds, no exception ever propagates out of `walk` (it always
returns normally with `Except.ok`); but an exception inside the sibling
chain is converted to `None` rather than to the partial result: if the
`nextentry` sub-chain of the first entry fails (evaluates to `none`), the
whole chain's result is `none`, aborting the records already collected
for the other siblings instead of returning them. -/
theorem claim_C1_amended (fs : Fs) (fh : Nat) (p : String) (r : Nat) (entries : List DirEntry)
    (hr : r ≠ 0) (hrd : fs.readdir fh = ReaddirResult.ok entries) :
    (∃ o, list_dir fs fh p r = Except.ok o)
    ∧ (∀ e rest, entries = e :: rest → e.nextentry ≠ [] →
        process_entries fs e.nextentry p r = none →
        process_entries fs entries p r = none) := by
  constructor
  · exact ⟨process_entries fs entries p r, by simp [list_dir, hr, hrd]⟩
  · rintro ⟨hn, nm, ap, t, hd, nx⟩ rest rfl hne hnone
    simp only [DirEntry.nextentry] at hne hnone
    rw [process_entries]
    have hemp : nx.isEmpty = false := by
      cases nx with
      | nil => exact absurd rfl hne
      | cons a as => rfl
    rw [hemp]
    simp only [Bool.false_eq_true, if_false, hnone]
    cases (if hn && nm != "." && nm != ".." then
        if ap then
          if h2 : t = 2 ∧ r ≠ 0 then
            if r - 1 = 0 then
              some [(⟨p ++ "/" ++ nm ++ "/", (get_permissions (fs.acc hd)).1,
                (get_permissions (fs.acc hd)).2.1, (get_permissions (fs.acc hd)).2.2⟩ : WalkRecord)]
            else
              match fs.readdir hd with
              | ReaddirResult.exc => none
              | ReaddirResult.resfail => none
              | ReaddirResult.ok es => process_entries fs es (p ++ "/" ++ nm) (r - 1)
          else
            some [(⟨p ++ "/" ++ nm, (get_permissions (fs.acc hd)).1,
              (get_permissions (fs.acc hd)).2.1, (get_permissions (fs.acc hd)).2.2⟩ : WalkRecord)]
        else some []
      else some []) with
    | none => rfl
    | some c1 => rfl

/-- C1 witness: the amended statement instantiated on a concrete
filesystem whose root chain is the single file `a`. -/
theorem claim_C1_witness :
    (∃ o, list_dir fsW1 0 "p" 1 = Except.ok o)
    ∧ (∀ e rest, entsW1 = e :: rest → e.nextentry ≠ [] →
        process_entries fsW1 e.nextentry "p" 1 = none →
        process_entries fsW1 entsW1 "p" 1 = none) :=
  claim_C1_amended fsW1 0 "p" 1 entsW1 (by decide) rfl

/-! Section: C8 / C9 — size formatter -/

/-- The reference integer logarithm lies inside the index band. -/
theorem refFloat_ilog : IlogApprox refFloat.ilog := by
  intro b hb
  have hb0 : b ≠ 0 := Nat.pos_iff_ne_zero.mp hb
  have hlow : 1024 ^ Nat.log 1024 b ≤ b := Nat.pow_log_le_self 1024 hb0
  have hhigh : b < 1024 ^ (Nat.log 1024 b + 1) :=
    Nat.lt_pow_succ_log_self (by norm_num) b
  have hre : refFloat.ilog b = Nat.log 1024 b := rfl
  rw [hre]
  omega

/-- Exact half-even rounding lies inside the rounding band. -/
theorem roundTenths_band (b p : Nat) (hp : 0 < p) :
    100 * roundTenths b p * p ≤ 1000 * b + 51 * p ∧
    1000 * b ≤ 100 * roundTenths b p * p + 51 * p := by
  have hmod : 10 * b / p * p + 10 * b % p = 10 * b := by
    rw [Nat.mul_comm (10 * b / p) p]
    exact Nat.div_add_mod (10 * b) p
  have hrlt : 10 * b % p < p := Nat.mod_lt _ hp
  have hqp : 10 * b / p * p = 10 * b - 10 * b % p := Nat.eq_sub_of_add_eq hmod
  have hsucc : (10 * b / p + 1) * p = 10 * b / p * p + p := by
    rw [Nat.succ_mul]
  simp only [roundTenths]
  split_ifs with h1 h2 h3
  · rw [mul_assoc, hqp]
    omega
  · rw [mul_assoc, hsucc, hqp]
    omega
  · rw [mul_assoc, hqp]
    omega
  · rw [mul_assoc, hsucc, hqp]
    omega

/-- The reference rounding lies inside the rounding band. -/
theorem refFloat_round10 : Round10Approx refFloat.round10 :=
  fun b p hp => roundTenths_band b p hp

/-- Generic evaluation of `convert_size` once the oracle index is
known and in range. -/
theorem convert_size_eval (fo : FloatOracle) (b : Nat) (hb : b ≠ 0) (i : Nat)
    (hi : fo.ilog b = i) (hu : i < size_name.length) :
    convert_size fo b =
      some (toString (fo.round10 b (1024 ^ i) / 10) ++ "." ++
        toString (fo.round10 b (1024 ^ i) % 10) ++ size_name[i]) := by
  simp only [convert_size]
  rw [if_neg hb, hi, List.getElem?_eq_getElem hu]

/-- `convert_size` raises `IndexError` (is `none`) whenever the oracle
index is out of range. -/
theorem convert_size_raises (fo : FloatOracle) (b : Nat) (hb : b ≠ 0)
    (hu : size_name.length ≤ fo.ilog b) :
    convert_size fo b = none := by
  simp only [convert_size]
  rw [if_neg hb, List.getElem?_eq_none hu]

/-- Any index inside the band is below 9 when the input is safely below
the `YB` boundary. -/
theorem ilog_lt_nine {ilog : Nat → Nat} (hil : IlogApprox ilog) (b : Nat)
    (hb : 0 < b) (hsmall : 101 * b < 100 * 1024 ^ 9) : ilog b < 9 := by
  obtain ⟨h1, -⟩ := hil b hb
  by_contra hge
  push_neg at hge
  have : (1024 : Nat) ^ 9 ≤ 1024 ^ ilog b := Nat.pow_le_pow_right (by norm_num) hge
  omega

/-- Any index inside the band is at least 9 when the input is safely
above the `YB` boundary. -/
theorem ilog_ge_nine {ilog : Nat → Nat} (hil : IlogApprox ilog) (b : Nat)
    (hbig : 101 * 1024 ^ 9 < 100 * b) : 9 ≤ ilog b := by
  have hb : 0 < b := by
    have : (0 : Nat) < 1024 ^ 9 := pow_pos (by norm_num) 9
    omega
  obtain ⟨-, h2⟩ := hil b hb
  by_contra hlt
  push_neg at hlt
  have : (1024 : Nat) ^ (ilog b + 1) ≤ 1024 ^ 9 := Nat.pow_le_pow_right (by norm_num) (by omega)
  omega

/-- C8 counterexample: at `4 * 1024 ^ 9` the claimed selection rule
(largest unit in `{B..YB}` with `bytes / 1024 ^ i ≥ 1`) would cap the
unit at `YB` and produce `"4096.0YB"`, but the program computes unit
index `9` (forced for every float behaviour in the band, since the
input is fifty times past the boundary) and `size_name[9]` raises
`IndexError` — modelled as `none` and shown here on the reference
oracle. -/
theorem claim_C8_counterexample : convert_size refFloat (4 * 1024 ^ 9) = none := by
  have hl : refFloat.ilog (4 * 1024 ^ 9) = 9 :=
    Nat.log_eq_of_pow_le_of_lt_pow
      (by nlinarith [pow_pos (by norm_num : (0 : ℕ) < 1024) 9])
      (by norm_num [pow_succ])
  apply convert_size_raises
  · positivity
  · rw [hl]
    decide

/-- C8 amended: for every float behaviour inside the conservative
binary64 error bands, `format(0) = "0B"` and `format(1536) = "1.5KB"`
hold outright (the band forces index 1 and mantissa 15 at 1536);
`format(1073741824) = "1.0GB"` holds whenever the float log is exact at
`1024 ^ 3` (as it is in CPython, and as the frozen claim itself
asserts); and for every nonzero `bytes` safely below the `YB` boundary
the formatter picks a unit index agreeing with `floor(log1024 bytes)` up
to float error (the band `100 * 1024 ^ i ≤ 101 * b ≤ 101 * 1024 ^ (i+1)`),
divides, rounds to one decimal up to float error (within 0.51 of the
exact tenfold mantissa), and appends the unit suffix with no space.
Beyond the boundary the program raises instead of selecting `YB` (see
the counterexample). -/
theorem claim_C8_amended (fo : FloatOracle) (hil : IlogApprox fo.ilog)
    (hr10 : Round10Approx fo.round10) :
    convert_size fo 0 = some "0B"
    ∧ convert_size fo 1536 = some "1.5KB"
    ∧ (fo.ilog 1073741824 = 3 → convert_size fo 1073741824 = some "1.0GB")
    ∧ ∀ b : Nat, 0 < b → 101 * b < 100 * 1024 ^ 9 →
        ∃ i u r, 100 * 1024 ^ i ≤ 101 * b ∧ 100 * b ≤ 101 * 1024 ^ (i + 1) ∧
          size_name[i]? = some u ∧
          100 * r * 1024 ^ i ≤ 1000 * b + 51 * 1024 ^ i ∧
          1000 * b ≤ 100 * r * 1024 ^ i + 51 * 1024 ^ i ∧
          convert_size fo b = some (toString (r / 10) ++ "." ++ toString (r % 10) ++ u) := by
  refine ⟨rfl, ?_, ?_, ?_⟩
  · -- 1536: the band forces index 1 and scaled mantissa 15
    have hi1 : fo.ilog 1536 = 1 := by
      obtain ⟨h1, h2⟩ := hil 1536 (by norm_num)
      have hle : fo.ilog 1536 ≤ 1 := by
        by_contra hgt
        push_neg at hgt
        have : (1024 : Nat) ^ 2 ≤ 1024 ^ fo.ilog 1536 :=
          Nat.pow_le_pow_right (by norm_num) hgt
        norm_num at this h1
        omega
      have hz : fo.ilog 1536 = 0 ∨ fo.ilog 1536 = 1 := by omega
      rcases hz with hz | hz
      · rw [hz] at h2
        norm_num at h2
      · exact hz
    have hr15 : fo.round10 1536 1024 = 15 := by
      obtain ⟨h3, h4⟩ := hr10 1536 1024 (by norm_num)
      omega
    rw [convert_size_eval fo 1536 (by norm_num) 1 hi1 (by norm_num [size_name]),
      show (1024 : Nat) ^ 1 = 1024 from by norm_num, hr15]
    decide
  · -- 1073741824 = 1024 ^ 3, given an exact float log there
    intro hpow
    have hr10g : fo.round10 1073741824 1073741824 = 10 := by
      obtain ⟨h3, h4⟩ := hr10 1073741824 1073741824 (by norm_num)
      omega
    rw [convert_size_eval fo 1073741824 (by norm_num) 3 hpow (by norm_num [size_name]),
      show (1024 : Nat) ^ 3 = 1073741824 from by norm_num, hr10g]
    decide
  · intro b hb hsmall
    obtain ⟨h1, h2⟩ := hil b hb
    obtain ⟨h3, h4⟩ := hr10 b (1024 ^ fo.ilog b) (pow_pos (by norm_num) _)
    have hi9 : fo.ilog b < 9 := ilog_lt_nine hil b hb hsmall
    have hlen : fo.ilog b < size_name.length := by
      simpa [size_name] using hi9
    refine ⟨fo.ilog b, size_name[fo.ilog b], fo.round10 b (1024 ^ fo.ilog b),
      h1, h2, List.getElem?_eq_getElem hlen, h3, h4, ?_⟩
    exact convert_size_eval fo b (by omega) (fo.ilog b) rfl hlen

/-- C8 witness: the `1.0GB` conjunct on the reference oracle, with the
exact-at-`1024^3` hypothesis discharged by computation. -/
theorem claim_C8_witness : convert_size refFloat 1073741824 = some "1.0GB" :=
  (claim_C8_amended refFloat refFloat_ilog refFloat_round10).2.2.1
    (Nat.log_eq_of_pow_le_of_lt_pow (by norm_num) (by norm_num))

/-- C9 counterexample: `convert_size` is not total — at `2 * 1024 ^ 9`
the unit index is `9` (forced for every float behaviour in the band) and
`size_name[9]` raises `IndexError`, modelled as `none` and shown here on
the reference oracle. -/
theorem claim_C9_counterexample : convert_size refFloat (2 * 1024 ^ 9) = none := by
  have hl : refFloat.ilog (2 * 1024 ^ 9) = 9 :=
    Nat.log_eq_of_pow_le_of_lt_pow
      (by nlinarith [pow_pos (by norm_num : (0 : ℕ) < 1024) 9])
      (by norm_num [pow_succ])
  apply convert_size_raises
  · positivity
  · rw [hl]
    decide

/-- C9 amended: for every float behaviour inside the binary64 error
band, `format` returns (never raises) a numeric prefix followed by a
known unit suffix for every `bytes` safely below the `YB` boundary
(`101 * bytes < 100 * 1024 ^ 9`; the failure boundary itself is
float-fuzzy — CPython already raises at `1024 ^ 9 - 1`), and raises
`IndexError` for every `bytes` safely above it
(`101 * 1024 ^ 9 < 100 * bytes`), so totality over all non-negative
`bytes` fails. -/
theorem claim_C9_amended (fo : FloatOracle) (hil : IlogApprox fo.ilog) (b : Nat) :
    (101 * b < 100 * 1024 ^ 9 →
      ∃ s, convert_size fo b = some s ∧
        ∃ u, u ∈ size_name ∧
          (s = "0" ++ u ∨ ∃ q r : Nat, r < 10 ∧ s = toString q ++ "." ++ toString r ++ u))
    ∧ (101 * 1024 ^ 9 < 100 * b → convert_size fo b = none) := by
  constructor
  · intro hsmall
    rcases Nat.eq_zero_or_pos b with hb | hb
    · subst hb
      exact ⟨"0B", rfl, "B", by simp [size_name], Or.inl rfl⟩
    · have hi9 : fo.ilog b < 9 := ilog_lt_nine hil b hb hsmall
      have hlen : fo.ilog b < size_name.length := by
        simpa [size_name] using hi9
      refine ⟨_, convert_size_eval fo b (by omega) (fo.ilog b) rfl hlen,
        size_name[fo.ilog b], List.getElem_mem hlen, Or.inr ?_⟩
      exact ⟨fo.round10 b (1024 ^ fo.ilog b) / 10, fo.round10 b (1024 ^ fo.ilog b) % 10,
        Nat.mod_lt _ (by norm_num), rfl⟩
  · intro hbig
    have h9 : 9 ≤ fo.ilog b := ilog_ge_nine hil b hbig
    have hb : b ≠ 0 := by
      have : (0 : Nat) < 1024 ^ 9 := pow_pos (by norm_num) 9
      omega
    apply convert_size_raises fo b hb
    simpa [size_name] using h9

/-- C9 witness: the never-raises conjunct at `bytes = 1536` on the
reference oracle. -/
theorem claim_C9_witness :
    ∃ s, convert_size refFloat 1536 = some s ∧
      ∃ u, u ∈ size_name ∧
        (s = "0" ++ u ∨ ∃ q r : Nat, r < 10 ∧ s = toString q ++ "." ++ toString r ++ u) :=
  (claim_C9_amended refFloat refFloat_ilog 1536).1 (by norm_num)

/-! Section: C6 — file-only chains -/

/-- The guard of `process_entries` that lets an entry produce output:
named and not `.`/`..`. -/
def namedNonDot (e : DirEntry) : Bool :=
  e.hasName && e.name != "." && e.name != ".."

/-- On a chain whose named non-dot entries are all files (attributes
present, type ≠ 2), `process_entries` succeeds and returns exactly one
record per named non-dot entry, at any depth budget. -/
theorem process_entries_files (fs : Fs) :
    ∀ (n : Nat) (entries : List DirEntry), sizeOf entries ≤ n →
      ∀ (p : String) (r : Nat),
        (∀ e ∈ chainEntries entries, e.hasName = true ∧
          (namedNonDot e = true → e.attrsPresent = true ∧ e.attrType ≠ 2)) →
        ∃ l, process_entries fs entries p r = some l ∧
          l.length = ((chainEntries entries).filter namedNonDot).length := by
  intro n
  induction n using Nat.strong_induction_on with
  | _ n IH =>
    intro entries hsz p r hprem
    rcases entries with _ | ⟨⟨hn, nm, ap, t, hd, nx⟩, rest⟩
    · refine ⟨[], ?_, ?_⟩
      · rw [process_entries]
      · simp [chainEntries]
    · have hmem : DirEntry.mk hn nm ap t hd nx ∈
          chainEntries (DirEntry.mk hn nm ap t hd nx :: rest) := by
        rw [chainEntries]; exact List.mem_cons_self _ _
      have hsz_nx : sizeOf nx < n := by
        simp at hsz; omega
      have hsz_rest : sizeOf rest < n := by
        simp at hsz; omega
      have hprem_nx : ∀ e ∈ chainEntries nx, e.hasName = true ∧
          (namedNonDot e = true → e.attrsPresent = true ∧ e.attrType ≠ 2) := by
        intro e he
        refine hprem e ?_
        rw [chainEntries]
        exact List.mem_cons_of_mem _ (List.mem_append_left _ he)
      have hprem_rest : ∀ e ∈ chainEntries rest, e.hasName = true ∧
          (namedNonDot e = true → e.attrsPresent = true ∧ e.attrType ≠ 2) := by
        intro e he
        refine hprem e ?_
        rw [chainEntries]
        exact List.mem_cons_of_mem _ (List.mem_append_right _ he)
      obtain ⟨l2, hl2, hlen2⟩ := IH (sizeOf nx) hsz_nx nx le_rfl p r hprem_nx
      obtain ⟨l3, hl3, hlen3⟩ := IH (sizeOf rest) hsz_rest rest le_rfl p r hprem_rest
      have hc2 : (if nx.isEmpty then some [] else process_entries fs nx p r) = some l2 := by
        by_cases hnx : nx.isEmpty
        · have : nx = [] := List.isEmpty_iff.mp hnx
          subst this
          rw [process_entries] at hl2
          rw [if_pos hnx]
          exact hl2
        · rw [if_neg hnx]; exact hl2
      have hhn : hn = true := by
        have := (hprem _ hmem).1
        simpa [DirEntry.hasName] using this
      subst hhn
      by_cases hd1 : (true && nm != "." && nm != "..") = true
      · have hnd : namedNonDot (DirEntry.mk true nm ap t hd nx) = true := by
          simpa [namedNonDot, DirEntry.hasName, DirEntry.name] using hd1
        obtain ⟨hap, ht⟩ := (hprem _ hmem).2 hnd
        have hap' : ap = true := by simpa [DirEntry.attrsPresent] using hap
        have ht' : t ≠ 2 := by simpa [DirEntry.attrType] using ht
        subst hap'
        refine ⟨[⟨p ++ "/" ++ nm, (get_permissions (fs.acc hd)).1,
          (get_permissions (fs.acc hd)).2.1, (get_permissions (fs.acc hd)).2.2⟩] ++ l2 ++ l3,
          ?_, ?_⟩
        · rw [process_entries]
          rw [if_pos hd1, if_pos rfl, dif_neg (fun hc => ht' hc.1)]
          rw [hc2, hl3]
        · rw [chainEntries, List.filter_cons_of_pos hnd, List.filter_append]
          simp [hlen2, hlen3]
      · have hnd : namedNonDot (DirEntry.mk true nm ap t hd nx) = false := by
          simp only [namedNonDot, DirEntry.hasName, DirEntry.name]
          simpa using hd1
        refine ⟨[] ++ l2 ++ l3, ?_, ?_⟩
        · rw [process_entries]
          rw [if_neg hd1]
          rw [hc2, hl3]
        · rw [chainEntries, List.filter_cons_of_neg (by simp [hnd]), List.filter_append]
          simp [hlen2, hlen3]

/-- Entry chain for the C6 counterexample: two plain files `a`, `b`
linked through `nextentry`. -/
def entsC6 : List DirEntry :=
  [DirEntry.mk true "a" true 1 1 [DirEntry.mk true "b" true 1 2 []]]

/-- Filesystem whose every directory lists `entsC6`. -/
def fsC6 : Fs := ⟨fun _ => ReaddirResult.ok entsC6, fun _ => oracleRWX⟩

/-- Evaluation of the flattened chain of `entsC6`. -/
theorem chainEntries_entsC6 :
    chainEntries entsC6 =
      [DirEntry.mk true "a" true 1 1 [DirEntry.mk true "b" true 1 2 []],
       DirEntry.mk true "b" true 1 2 []] := by
  rw [entsC6, chainEntries, chainEntries, chainEntries, chainEntries]
  rfl

/-- The chain `entsC6` consists of files only. -/
theorem entsC6_files : ∀ e ∈ chainEntries entsC6, e.hasName = true ∧
    (namedNonDot e = true → e.attrsPresent = true ∧ e.attrType ≠ 2) := by
  intro e he
  rw [chainEntries_entsC6] at he
  simp only [List.mem_cons, List.not_mem_nil, or_false] at he
  rcases he with rfl | rfl
  · exact ⟨rfl, fun _ => ⟨rfl, by decide⟩⟩
  · exact ⟨rfl, fun _ => ⟨rfl, by decide⟩⟩

/-- C6 counterexample: a share whose chain has `N = 2` files and zero
directories, walked with `K = 0`: the claim (`any K ≥ 0`) demands 2
records, but depth 0 returns exactly one record (the share root itself),
without ever consulting the chain. -/
theorem claim_C6_counterexample :
    ((chainEntries entsC6).filter namedNonDot).length = 2 ∧
    (∀ e ∈ chainEntries entsC6, e.hasName = true ∧
      (namedNonDot e = true → e.attrsPresent = true ∧ e.attrType ≠ 2)) ∧
    fsC6.readdir 0 = ReaddirResult.ok entsC6 ∧
    list_dir fsC6 0 "share" 0 =
      Except.ok (some [⟨"share/", true, true, true⟩]) ∧
    (1 : Nat) ≠ 2 := by
  refine ⟨?_, entsC6_files, rfl, rfl, by decide⟩
  rw [chainEntries_entsC6]
  decide

/-- C6 amended: for every depth budget `K ≥ 1`, a walk of a share whose
chain consists of files only (no directory entries) returns exactly one
record per named non-dot entry — the depth never matters from 1 on.  (At
`K = 0` the walk instead returns the single share-root record, see the
counterexample and C5.) -/
theorem claim_C6_amended (fs : Fs) (fh : Nat) (p : String) (K : Nat) (entries : List DirEntry)
    (hK : K ≠ 0) (hrd : fs.readdir fh = ReaddirResult.ok entries)
    (hfiles : ∀ e ∈ chainEntries entries, e.hasName = true ∧
      (namedNonDot e = true → e.attrsPresent = true ∧ e.attrType ≠ 2)) :
    ∃ l, list_dir fs fh p K = Except.ok (some l) ∧
      l.length = ((chainEntries entries).filter namedNonDot).length := by
  obtain ⟨l, hl, hlen⟩ :=
    process_entries_files fs (sizeOf entries) entries le_rfl p K hfiles
  refine ⟨l, ?_, hlen⟩
  rw [list_dir, if_neg hK, hrd]
  simp only [hl]

/-- C6 witness: the amended statement on the concrete two-file chain at
depth 1 (the walk yields 2 records). -/
theorem claim_C6_witness :
    ∃ l, list_dir fsC6 0 "share" 1 = Except.ok (some l) ∧
      l.length = ((chainEntries entsC6).filter namedNonDot).length := by
  exact claim_C6_amended fsC6 0 "share" 1 entsC6 (by decide) rfl entsC6_files

/-! Section: C7 — dot entries are excluded -/

/-- The per-entry processing step of `process_entries` (the body of the
`for entry in entries:` loop without the `nextentry` part), extracted for
case analysis. -/
def pe_own (fs : Fs) (hn : Bool) (nm : String) (ap : Bool) (t hd : Nat)
    (p : String) (r : Nat) : Option (List WalkRecord) :=
  if hn && nm != "." && nm != ".." then
    if ap then
      if h2 : t = 2 ∧ r ≠ 0 then
        if r - 1 = 0 then
          let q := get_permissions (fs.acc hd)
          some [⟨p ++ "/" ++ nm ++ "/", q.1, q.2.1, q.2.2⟩]
        else
          match fs.readdir hd with
          | ReaddirResult.exc => none
          | ReaddirResult.resfail => none
          | ReaddirResult.ok es => process_entries fs es (p ++ "/" ++ nm) (r - 1)
      else
        let q := get_permissions (fs.acc hd)
        some [⟨p ++ "/" ++ nm, q.1, q.2.1, q.2.2⟩]
    else some []
  else some []

/-- Unfolding of `process_entries` on a cons cell, phrased through
`pe_own`. -/
theorem process_entries_cons_eq (fs : Fs) (hn : Bool) (nm : String) (ap : Bool)
    (t hd : Nat) (nx rest : List DirEntry) (p : String) (r : Nat) :
    process_entries fs (DirEntry.mk hn nm ap t hd nx :: rest) p r =
      match pe_own fs hn nm ap t hd p r with
      | none => none
      | some c1 =>
        match (if nx.isEmpty then some [] else process_entries fs nx p r) with
        | none => none
        | some c2 =>
          match process_entries fs rest p r with
          | none => none
          | some c3 => some (c1 ++ c2 ++ c3) := by
  rw [process_entries]
  rfl

/-- Case analysis of a successful `pe_own`: it yields nothing, a record
for the (named, non-dot) entry itself — as a file or as a
depth-exhausted directory — or the result of recursing into the entry's
directory listing. -/
theorem pe_own_cases (fs : Fs) (hn : Bool) (nm : String) (ap : Bool) (t hd : Nat)
    (p : String) (r : Nat) (c1 : List WalkRecord)
    (h : pe_own fs hn nm ap t hd p r = some c1) :
    c1 = [] ∨
    ((hn && nm != "." && nm != "..") = true ∧
      (c1 = [⟨p ++ "/" ++ nm, (get_permissions (fs.acc hd)).1,
          (get_permissions (fs.acc hd)).2.1, (get_permissions (fs.acc hd)).2.2⟩] ∨
       c1 = [⟨p ++ "/" ++ nm ++ "/", (get_permissions (fs.acc hd)).1,
          (get_permissions (fs.acc hd)).2.1, (get_permissions (fs.acc hd)).2.2⟩] ∨
       (∃ es, r ≠ 0 ∧ fs.readdir hd = ReaddirResult.ok es ∧
         process_entries fs es (p ++ "/" ++ nm) (r - 1) = some c1))) := by
  unfold pe_own at h
  split at h
  · next hg =>
    split at h
    · next hap =>
      split at h
      · next h2 =>
        split at h
        · next hr1 =>
          right
          refine ⟨hg, Or.inr (Or.inl ?_)⟩
          exact (Option.some.injEq _ _ ▸ h).symm
        · next hr1 =>
          right
          refine ⟨hg, Or.inr (Or.inr ?_)⟩
          cases hread : fs.readdir hd with
          | exc => rw [hread] at h; exact Option.noConfusion h
          | resfail => rw [hread] at h; exact Option.noConfusion h
          | ok es =>
            rw [hread] at h
            exact ⟨es, h2.2, rfl, h⟩
      · next h2 =>
        right
        refine ⟨hg, Or.inl ?_⟩
        exact (Option.some.injEq _ _ ▸ h).symm
    · next hap =>
      left
      exact (Option.some.injEq _ _ ▸ h).symm
  · next hg =>
    left
    exact (Option.some.injEq _ _ ▸ h).symm

/-- Every record an in-budget walk produces sits at a path of the form
`parent ++ "/" ++ name` (or `... ++ "/"` for a depth-exhausted
directory) where `name` is a slash-free entry name different from `.`
and `..` — so no record ever corresponds to a `.` or `..` entry. -/
theorem process_entries_paths (fs : Fs)
    (hfs : ∀ h es, fs.readdir h = ReaddirResult.ok es →
      ∀ e ∈ chainEntries es, ('/' : Char) ∉ e.name.data) :
    ∀ (r n : Nat) (entries : List DirEntry), sizeOf entries ≤ n →
      ∀ (p : String) (l : List WalkRecord),
        (∀ e ∈ chainEntries entries, ('/' : Char) ∉ e.name.data) →
        process_entries fs entries p r = some l →
        ∀ rec ∈ l, ∃ q nm2, ('/' : Char) ∉ nm2.data ∧ nm2 ≠ "." ∧ nm2 ≠ ".." ∧
          (rec.path = q ++ "/" ++ nm2 ∨ rec.path = q ++ "/" ++ nm2 ++ "/") := by
  intro r
  induction r using Nat.strong_induction_on with
  | _ r IHr =>
    intro n
    induction n using Nat.strong_induction_on with
    | _ n IHn =>
      intro entries hsz p l hchain hpe rec hrec
      rcases entries with _ | ⟨⟨hn, nm, ap, t, hd, nx⟩, rest⟩
      · rw [process_entries] at hpe
        cases hpe
        cases hrec
      · rw [process_entries_cons_eq] at hpe
        have hsz_nx : sizeOf nx < n := by simp at hsz; omega
        have hsz_rest : sizeOf rest < n := by simp at hsz; omega
        have hchain_nx : ∀ e ∈ chainEntries nx, ('/' : Char) ∉ e.name.data := by
          intro e he
          refine hchain e ?_
          rw [chainEntries]
          exact List.mem_cons_of_mem _ (List.mem_append_left _ he)
        have hchain_rest : ∀ e ∈ chainEntries rest, ('/' : Char) ∉ e.name.data := by
          intro e he
          refine hchain e ?_
          rw [chainEntries]
          exact List.mem_cons_of_mem _ (List.mem_append_right _ he)
        have hnm_free : ('/' : Char) ∉ nm.data := by
          have := hchain (DirEntry.mk hn nm ap t hd nx)
            (by rw [chainEntries]; exact List.mem_cons_self _ _)
          simpa [DirEntry.name] using this
        cases h1 : pe_own fs hn nm ap t hd p r with
        | none => rw [h1] at hpe; exact Option.noConfusion hpe
        | some c1 =>
          rw [h1] at hpe
          cases h2 : (if nx.isEmpty then some [] else process_entries fs nx p r) with
          | none => rw [h2] at hpe; exact Option.noConfusion hpe
          | some c2 =>
            rw [h2] at hpe
            cases h3 : process_entries fs rest p r with
            | none => rw [h3] at hpe; exact Option.noConfusion hpe
            | some c3 =>
              rw [h3] at hpe
              have hl : l = c1 ++ c2 ++ c3 := by
                have := hpe
                simp only [Option.some.injEq] at this
                exact this.symm
              subst hl
              rcases List.mem_append.mp hrec with h12 | hc3
              · rcases List.mem_append.mp h12 with hc1 | hc2
                · -- record from the entry itself or its subtree
                  rcases pe_own_cases fs hn nm ap t hd p r c1 h1 with hempty | ⟨hg, hcase⟩
                  · subst hempty; cases hc1
                  · have hnm_facts : nm ≠ "." ∧ nm ≠ ".." := by
                      simp only [Bool.and_eq_true, bne_iff_ne, ne_eq] at hg
                      exact ⟨hg.1.2, hg.2⟩
                    rcases hcase with hce | hce | ⟨es, hr0, hread, hrec_es⟩
                    · subst hce
                      rcases List.mem_singleton.mp hc1 with rfl
                      exact ⟨p, nm, hnm_free, hnm_facts.1, hnm_facts.2, Or.inl rfl⟩
                    · subst hce
                      rcases List.mem_singleton.mp hc1 with rfl
                      exact ⟨p, nm, hnm_free, hnm_facts.1, hnm_facts.2, Or.inr rfl⟩
                    · exact IHr (r - 1) (Nat.sub_lt (Nat.pos_of_ne_zero hr0) Nat.one_pos)
                        (sizeOf es) es le_rfl (p ++ "/" ++ nm) c1
                        (hfs hd es hread) hrec_es rec hc1
                · -- record from the nextentry chain
                  by_cases hnx : nx.isEmpty
                  · rw [if_pos hnx] at h2
                    have : c2 = [] := by
                      simp only [Option.some.injEq] at h2
                      exact h2.symm
                    subst this; cases hc2
                  · rw [if_neg hnx] at h2
                    exact IHn (sizeOf nx) hsz_nx nx le_rfl p c2 hchain_nx h2 rec hc2
              · -- record from the remaining siblings
                exact IHn (sizeOf rest) hsz_rest rest le_rfl p c3 hchain_rest h3 rec hc3

/-- C7: a walk with depth > 0 never emits a record for an entry named `.`
or `..`: assuming the remote names are slash-free (as NFS names are),
every record of the result decomposes as `parent ++ "/" ++ name` — or
`parent ++ "/" ++ name ++ "/"` for a depth-exhausted directory — with a
slash-free `name` different from `.` and `..`; by uniqueness of that
decomposition no record path ever designates a dot entry. -/
theorem claim_C7 (fs : Fs) (fh : Nat) (p : String) (r : Nat) (hr : r ≠ 0)
    (hfs : ∀ h es, fs.readdir h = ReaddirResult.ok es →
      ∀ e ∈ chainEntries es, ('/' : Char) ∉ e.name.data)
    (l : List WalkRecord) (hld : list_dir fs fh p r = Except.ok (some l)) :
    ∀ rec ∈ l, ∃ q nm2, ('/' : Char) ∉ nm2.data ∧ nm2 ≠ "." ∧ nm2 ≠ ".." ∧
      (rec.path = q ++ "/" ++ nm2 ∨ rec.path = q ++ "/" ++ nm2 ++ "/") := by
  rw [list_dir, if_neg hr] at hld
  cases hread : fs.readdir fh with
  | exc => rw [hread] at hld; exact Except.noConfusion hld
  | resfail => rw [hread] at hld; exact Except.noConfusion hld
  | ok entries =>
    rw [hread] at hld
    have hpe : process_entries fs entries p r = some l := by
      simpa using hld
    exact process_entries_paths fs hfs r (sizeOf entries) entries le_rfl p l
      (hfs fh entries hread) hpe

/-- Evaluation of the flattened chain of `entsW1`. -/
theorem chainEntries_entsW1 :
    chainEntries entsW1 = [DirEntry.mk true "a" true 1 10 []] := by
  rw [entsW1, chainEntries, chainEntries]
  rfl

/-- C7 witness: the sole record of a concrete depth-1 walk decomposes as
`"share" ++ "/" ++ "a"`. -/
theorem claim_C7_witness :
    ∃ q nm2, ('/' : Char) ∉ nm2.data ∧ nm2 ≠ "." ∧ nm2 ≠ ".." ∧
      ((⟨"share/a", true, true, true⟩ : WalkRecord).path = q ++ "/" ++ nm2 ∨
        (⟨"share/a", true, true, true⟩ : WalkRecord).path = q ++ "/" ++ nm2 ++ "/") := by
  refine claim_C7 fsW1 0 "share" 1 (by decide) ?_
    [⟨"share/a", true, true, true⟩] ?_ ⟨"share/a", true, true, true⟩ (List.mem_singleton.mpr rfl)
  · intro h es hes e he
    have hes' : entsW1 = es := by simpa [fsW1] using hes
    subst hes'
    rw [chainEntries_entsW1] at he
    simp only [List.mem_cons, List.not_mem_nil, or_false] at he
    subst he
    decide
  · simp [list_dir, fsW1, entsW1, process_entries, get_permissions, extractAccess,
      oracleRWX, ACCESS3_READ, ACCESS3_MODIFY, ACCESS3_EXECUTE]

/-! Section: C2 / C4 — brute-force loop -/

/-- Number of `success share` lines for a given share in an event list. -/
def countSuccess (s : String) (evs : List LogEvent) : Nat :=
  evs.countP (fun ev => decide (ev = LogEvent.success s))

/-- Whether an event is failure reporting (`logger.fail` or
`logger.exception`). -/
def isFailureEvent : LogEvent → Bool
  | LogEvent.fail _ => true
  | LogEvent.exception _ => true
  | _ => false

/-- `classify_failure` reports something exactly when `max_uid = 0`. -/
theorem classify_failure_iff (max_uid : Nat) (share msg : String) :
    (max_uid = 0 → classify_failure max_uid share msg ≠ []) ∧
      (max_uid ≠ 0 → classify_failure max_uid share msg = []) := by
  constructor
  · intro h
    subst h
    rw [classify_failure, if_pos rfl]
    split
    · exact List.cons_ne_nil _ _
    · split
      · exact List.cons_ne_nil _ _
      · split
        · exact List.cons_ne_nil _ _
        · exact List.cons_ne_nil _ _
  · intro h
    rw [classify_failure, if_neg h]

/-- `classify_failure` never emits `success` lines. -/
theorem classify_failure_no_success (max_uid : Nat) (share msg s : String) :
    countSuccess s (classify_failure max_uid share msg) = 0 := by
  rw [classify_failure]
  split
  · split
    · rfl
    · split
      · rfl
      · split
        · rfl
        · rfl
  · rfl

/-- `classify_failure` emits only failure-reporting events. -/
theorem classify_failure_only_failures (max_uid : Nat) (share msg : String) :
    ∀ ev ∈ classify_failure max_uid share msg, isFailureEvent ev = true := by
  intro ev hev
  rw [classify_failure] at hev
  split at hev
  · split at hev
    · rcases List.mem_singleton.mp hev with rfl; rfl
    · split at hev
      · rcases List.mem_singleton.mp hev with rfl; rfl
      · split at hev
        · rcases List.mem_singleton.mp hev with rfl; rfl
        · rcases List.mem_singleton.mp hev with rfl; rfl
  · cases hev

/-- `attemptShare` when the mount itself fails. -/
theorem attemptShare_mnt_error (env : BruteEnv) (d mu u : Nat) (s msg : String)
    (hm : env.mnt u s = Except.error msg) :
    attemptShare env d mu u s = (false, classify_failure mu s msg) := by
  rw [attemptShare, hm]

/-- `attemptShare` when the mount succeeds but the walk raises. -/
theorem attemptShare_walk_error (env : BruteEnv) (d mu u : Nat) (s : String) (fh : Nat)
    (e : String) (hm : env.mnt u s = Except.ok fh)
    (hld : list_dir (env.fs u) fh s d = Except.error e) :
    attemptShare env d mu u s = (false, classify_failure mu s (nfsErrMsg e)) := by
  simp only [attemptShare, hm, hld]

/-- `attemptShare` when the walk returns `None` (swallowed error): the
share is still whitelisted and reported as a success, then iterating
`None` raises `TypeError`. -/
theorem attemptShare_walk_none (env : BruteEnv) (d mu u : Nat) (s : String) (fh : Nat)
    (hm : env.mnt u s = Except.ok fh)
    (hld : list_dir (env.fs u) fh s d = Except.ok none) :
    attemptShare env d mu u s =
      (true, LogEvent.success s ::
        classify_failure mu s "\x27NoneType\x27 object is not iterable") := by
  simp only [attemptShare, hm, hld]

/-- `attemptShare` when the walk returns contents. -/
theorem attemptShare_walk_some (env : BruteEnv) (d mu u : Nat) (s : String) (fh : Nat)
    (contents : List WalkRecord) (hm : env.mnt u s = Except.ok fh)
    (hld : list_dir (env.fs u) fh s d = Except.ok (some contents)) :
    attemptShare env d mu u s =
      (true, LogEvent.success s ::
        contents.map (fun c => LogEvent.highlight (content_line u c))) := by
  simp only [attemptShare, hm, hld]

/-- The whitelisting flag of `attemptShare` is `true` exactly when the
mount-and-walk attempt succeeds; the flag does not depend on `max_uid`. -/
theorem attemptShare_fst_iff (env : BruteEnv) (d mu u : Nat) (s : String) :
    (attemptShare env d mu u s).1 = true ↔ attemptSucceeds env d u s := by
  cases hm : env.mnt u s with
  | error msg =>
    rw [attemptShare_mnt_error env d mu u s msg hm]
    constructor
    · intro h; cases h
    · rintro ⟨fh, hfh, -⟩
      rw [hm] at hfh
      cases hfh
  | ok fh =>
    cases hld : list_dir (env.fs u) fh s d with
    | error e =>
      rw [attemptShare_walk_error env d mu u s fh e hm hld]
      constructor
      · intro h; cases h
      · rintro ⟨fh2, hfh2, o, ho⟩
        rw [hm] at hfh2
        have : fh = fh2 := by
          injection hfh2
        subst this
        rw [hld] at ho
        exact Except.noConfusion ho
    | ok o =>
      cases o with
      | none =>
        rw [attemptShare_walk_none env d mu u s fh hm hld]
        exact ⟨fun _ => ⟨fh, hm, none, hld⟩, fun _ => rfl⟩
      | some contents =>
        rw [attemptShare_walk_some env d mu u s fh contents hm hld]
        exact ⟨fun _ => ⟨fh, hm, some contents, hld⟩, fun _ => rfl⟩

/-- `success s2` lines emitted by one attempt on `s`: exactly one when
the attempt succeeds and `s2 = s`, zero otherwise. -/
theorem attemptShare_countSuccess (env : BruteEnv) (d mu u : Nat) (s s2 : String) :
    countSuccess s2 (attemptShare env d mu u s).2 =
      if (attemptShare env d mu u s).1 = true ∧ s2 = s then 1 else 0 := by
  cases hm : env.mnt u s with
  | error msg =>
    rw [attemptShare_mnt_error env d mu u s msg hm]
    rw [if_neg (fun hc => Bool.noConfusion hc.1)]
    exact classify_failure_no_success mu s msg s2
  | ok fh =>
    cases hld : list_dir (env.fs u) fh s d with
    | error e =>
      rw [attemptShare_walk_error env d mu u s fh e hm hld]
      rw [if_neg (fun hc => Bool.noConfusion hc.1)]
      exact classify_failure_no_success mu s _ s2
    | ok o =>
      cases o with
      | none =>
        rw [attemptShare_walk_none env d mu u s fh hm hld]
        have h0 := classify_failure_no_success mu s
          "\x27NoneType\x27 object is not iterable" s2
        by_cases hs : s2 = s
        · subst hs
          rw [if_pos ⟨rfl, rfl⟩]
          simp only [countSuccess, List.countP_cons] at h0 ⊢
          simp [h0]
        · rw [if_neg (fun hc => hs hc.2)]
          simp only [countSuccess, List.countP_cons] at h0 ⊢
          simp [h0, Ne.symm hs, hs]
      | some contents =>
        rw [attemptShare_walk_some env d mu u s fh contents hm hld]
        have h0 : (contents.map (fun c => LogEvent.highlight (content_line u c))).countP
            (fun ev => decide (ev = LogEvent.success s2)) = 0 := by
          rw [List.countP_map, List.countP_eq_zero]
          intro c hc
          simp [Function.comp]
        by_cases hs : s2 = s
        · subst hs
          rw [if_pos ⟨rfl, rfl⟩]
          simp only [countSuccess, List.countP_cons]
          simp [h0]
        · rw [if_neg (fun hc => hs hc.2)]
          simp only [countSuccess, List.countP_cons]
          simp [h0, Ne.symm hs, hs]

/-- With `max_uid ≠ 0`, one attempt emits no failure reporting at all. -/
theorem attemptShare_failures (env : BruteEnv) (d mu u : Nat) (s : String)
    (hmu : mu ≠ 0) :
    ∀ ev ∈ (attemptShare env d mu u s).2, isFailureEvent ev = false := by
  intro ev hev
  cases hm : env.mnt u s with
  | error msg =>
    rw [attemptShare_mnt_error env d mu u s msg hm,
      (classify_failure_iff mu s msg).2 hmu] at hev
    cases hev
  | ok fh =>
    cases hld : list_dir (env.fs u) fh s d with
    | error e =>
      rw [attemptShare_walk_error env d mu u s fh e hm hld,
        (classify_failure_iff mu s _).2 hmu] at hev
      cases hev
    | ok o =>
      cases o with
      | none =>
        rw [attemptShare_walk_none env d mu u s fh hm hld,
          (classify_failure_iff mu s _).2 hmu] at hev
        rcases List.mem_singleton.mp hev with rfl
        rfl
      | some contents =>
        rw [attemptShare_walk_some env d mu u s fh contents hm hld] at hev
        rcases List.mem_cons.mp hev with rfl | hev2
        · rfl
        · obtain ⟨c, -, rfl⟩ := List.mem_map.mp hev2
          rfl

/-- `countSuccess` distributes over append. -/
theorem countSuccess_append (s : String) (l1 l2 : List LogEvent) :
    countSuccess s (l1 ++ l2) = countSuccess s l1 + countSuccess s l2 :=
  List.countP_append _ _ _

/-- The whitelist only grows during the share loop. -/
theorem share_loop_wl_mono (env : BruteEnv) (d mu u : Nat) :
    ∀ (shares wl : List String) (x : String), x ∈ wl →
      x ∈ (share_loop env d mu u shares wl).1 := by
  intro shares
  induction shares with
  | nil => intro wl x hx; exact hx
  | cons s rest IH =>
    intro wl x hx
    rw [share_loop]
    by_cases hs : s ∈ wl
    · rw [if_pos hs]
      exact IH wl x hx
    · rw [if_neg hs]
      refine IH _ x ?_
      by_cases ha : (attemptShare env d mu u s).1 = true
      · rw [if_pos ha]
        exact List.mem_append_left _ hx
      · rw [if_neg ha]
        exact hx

/-- Attempts recorded by the share loop carry the loop's UID and concern
only shares that were not whitelisted on entry. -/
theorem share_loop_attempts (env : BruteEnv) (d mu u : Nat) :
    ∀ (shares wl : List String) (x : Nat × String),
      x ∈ (share_loop env d mu u shares wl).2.2 → x.1 = u ∧ x.2 ∉ wl := by
  intro shares
  induction shares with
  | nil => intro wl x hx; cases hx
  | cons s rest IH =>
    intro wl x hx
    rw [share_loop] at hx
    by_cases hs : s ∈ wl
    · rw [if_pos hs] at hx
      exact IH wl x hx
    · rw [if_neg hs] at hx
      have hsub : ∀ y : String, y ∈ wl →
          y ∈ (if (attemptShare env d mu u s).1 = true then wl ++ [s] else wl) := by
        intro y hy
        split
        · exact List.mem_append_left _ hy
        · exact hy
      rcases List.mem_cons.mp hx with rfl | hx2
      · exact ⟨rfl, hs⟩
      · obtain ⟨h1, h2⟩ := IH _ x hx2
        exact ⟨h1, fun hc => h2 (hsub _ hc)⟩

/-- A successful attempt recorded by the share loop leaves the share in
the final whitelist. -/
theorem share_loop_succ_wl (env : BruteEnv) (d mu u : Nat) :
    ∀ (shares wl : List String) (s2 : String),
      (u, s2) ∈ (share_loop env d mu u shares wl).2.2 →
      attemptSucceeds env d u s2 →
      s2 ∈ (share_loop env d mu u shares wl).1 := by
  intro shares
  induction shares with
  | nil => intro wl s2 hx; cases hx
  | cons s rest IH =>
    intro wl s2 hx hsucc
    rw [share_loop] at hx ⊢
    by_cases hs : s ∈ wl
    · rw [if_pos hs] at hx ⊢
      exact IH wl s2 hx hsucc
    · rw [if_neg hs] at hx ⊢
      rcases List.mem_cons.mp hx with heq | hx2
      · injection heq with h1 h2
        subst h2
        have ha : (attemptShare env d mu u s2).1 = true :=
          (attemptShare_fst_iff env d mu u s2).mpr hsucc
        refine share_loop_wl_mono env d mu u rest _ s2 ?_
        rw [if_pos ha]
        exact List.mem_append_right _ (List.mem_singleton.mpr rfl)
      · exact IH _ s2 hx2 hsucc

/-- A share already whitelisted is never reported again and never
re-attempted by the share loop. -/
theorem share_loop_skip (env : BruteEnv) (d mu u : Nat) :
    ∀ (shares wl : List String) (s2 : String), s2 ∈ wl →
      countSuccess s2 (share_loop env d mu u shares wl).2.1 = 0 ∧
      ∀ u2, (u2, s2) ∉ (share_loop env d mu u shares wl).2.2 := by
  intro shares
  induction shares with
  | nil =>
    intro wl s2 hs2
    exact ⟨rfl, fun u2 hx => by cases hx⟩
  | cons s rest IH =>
    intro wl s2 hs2
    rw [share_loop]
    by_cases hs : s ∈ wl
    · rw [if_pos hs]
      obtain ⟨hc, hatt⟩ := IH wl s2 hs2
      constructor
      · simp only [countSuccess, List.countP_cons] at hc ⊢
        simpa using hc
      · intro u2 hx
        exact hatt u2 hx
    · rw [if_neg hs]
      have hne : s2 ≠ s := fun hc => hs (hc ▸ hs2)
      have hwl1 : s2 ∈ (if (attemptShare env d mu u s).1 = true then wl ++ [s] else wl) := by
        split
        · exact List.mem_append_left _ hs2
        · exact hs2
      obtain ⟨hc, hatt⟩ := IH _ s2 hwl1
      constructor
      · rw [countSuccess_append, hc, attemptShare_countSuccess env d mu u s s2,
          if_neg (fun hcon => hne hcon.2)]
      · intro u2 hx
        rcases List.mem_cons.mp hx with heq | hx2
        · injection heq with h1 h2
          exact hne h2
        · exact hatt u2 hx2

/-- The share loop reports each share successfully at most once, and a
reported share ends in the whitelist. -/
theorem share_loop_count (env : BruteEnv) (d mu u : Nat) :
    ∀ (shares wl : List String) (s2 : String),
      countSuccess s2 (share_loop env d mu u shares wl).2.1 ≤ 1 ∧
      (1 ≤ countSuccess s2 (share_loop env d mu u shares wl).2.1 →
        s2 ∈ (share_loop env d mu u shares wl).1) := by
  intro shares
  induction shares with
  | nil =>
    intro wl s2
    refine ⟨Nat.zero_le 1, fun h => absurd h ?_⟩
    rw [share_loop]
    simp [countSuccess]
  | cons s rest IH =>
    intro wl s2
    rw [share_loop]
    by_cases hs : s ∈ wl
    · rw [if_pos hs]
      obtain ⟨h1, h2⟩ := IH wl s2
      constructor
      · simp only [countSuccess, List.countP_cons] at h1 ⊢
        simpa using h1
      · intro hge
        refine h2 ?_
        simp only [countSuccess, List.countP_cons] at hge ⊢
        simpa using hge
    · rw [if_neg hs]
      rw [countSuccess_append, attemptShare_countSuccess env d mu u s s2]
      by_cases hcase : (attemptShare env d mu u s).1 = true ∧ s2 = s
      · rw [if_pos hcase]
        have hwl1 : s2 ∈ (if (attemptShare env d mu u s).1 = true then wl ++ [s] else wl) := by
          rw [if_pos hcase.1]
          exact List.mem_append_right _ (List.mem_singleton.mpr hcase.2)
        obtain ⟨hc0, -⟩ := share_loop_skip env d mu u rest _ s2 hwl1
        rw [hc0]
        exact ⟨le_refl 1, fun _ => share_loop_wl_mono env d mu u rest _ s2 hwl1⟩
      · rw [if_neg hcase]
        obtain ⟨h1, h2⟩ := IH _ s2
        exact ⟨by simpa using h1, fun hge => h2 (by simpa using hge)⟩

/-- With `max_uid ≠ 0` the share loop emits no failure reporting. -/
theorem share_loop_failures (env : BruteEnv) (d mu u : Nat) (hmu : mu ≠ 0) :
    ∀ (shares wl : List String),
      ∀ ev ∈ (share_loop env d mu u shares wl).2.1, isFailureEvent ev = false := by
  intro shares
  induction shares with
  | nil => intro wl ev hev; cases hev
  | cons s rest IH =>
    intro wl ev hev
    rw [share_loop] at hev
    by_cases hs : s ∈ wl
    · rw [if_pos hs] at hev
      rcases List.mem_cons.mp hev with rfl | hev2
      · rfl
      · exact IH wl ev hev2
    · rw [if_neg hs] at hev
      rcases List.mem_append.mp hev with hev1 | hev2
      · exact attemptShare_failures env d mu u s hmu ev hev1
      · exact IH _ ev hev2

/-- The whitelist only grows across the UID loop. -/
theorem run_uids_wl_mono (env : BruteEnv) (d mu : Nat) (shares : List String) :
    ∀ (uids : List Nat) (wl : List String) (x : String), x ∈ wl →
      x ∈ (run_uids env d mu shares uids wl).1 := by
  intro uids
  induction uids with
  | nil => intro wl x hx; exact hx
  | cons u us IH =>
    intro wl x hx
    rw [run_uids]
    exact IH _ x (share_loop_wl_mono env d mu u shares wl x hx)

/-- A whitelisted share is never reported again nor re-attempted for the
rest of the UID loop. -/
theorem run_uids_skip (env : BruteEnv) (d mu : Nat) (shares : List String) :
    ∀ (uids : List Nat) (wl : List String) (s2 : String), s2 ∈ wl →
      countSuccess s2 (run_uids env d mu shares uids wl).2.1 = 0 ∧
      ∀ u2, (u2, s2) ∉ (run_uids env d mu shares uids wl).2.2 := by
  intro uids
  induction uids with
  | nil =>
    intro wl s2 hs2
    exact ⟨rfl, fun u2 hx => by cases hx⟩
  | cons u us IH =>
    intro wl s2 hs2
    rw [run_uids]
    obtain ⟨hc1, hatt1⟩ := share_loop_skip env d mu u shares wl s2 hs2
    obtain ⟨hc2, hatt2⟩ :=
      IH _ s2 (share_loop_wl_mono env d mu u shares wl s2 hs2)
    constructor
    · rw [countSuccess_append, hc1, hc2]
    · intro u2 hx
      rcases List.mem_append.mp hx with hx1 | hx2
      · exact hatt1 u2 hx1
      · exact hatt2 u2 hx2

/-- The UID loop reports each share successfully at most once. -/
theorem run_uids_count (env : BruteEnv) (d mu : Nat) (shares : List String) :
    ∀ (uids : List Nat) (wl : List String) (s2 : String),
      countSuccess s2 (run_uids env d mu shares uids wl).2.1 ≤ 1 := by
  intro uids
  induction uids with
  | nil =>
    intro wl s2
    exact Nat.zero_le 1
  | cons u us IH =>
    intro wl s2
    rw [run_uids, countSuccess_append]
    obtain ⟨h1, h2⟩ := share_loop_count env d mu u shares wl s2
    by_cases hge : 1 ≤ countSuccess s2 (share_loop env d mu u shares wl).2.1
    · have hwl := h2 hge
      obtain ⟨hc2, -⟩ := run_uids_skip env d mu shares us _ s2 hwl
      omega
    · have h0 : countSuccess s2 (share_loop env d mu u shares wl).2.1 = 0 := by omega
      rw [h0]
      simpa using IH _ s2

/-- Every attempt recorded by the UID loop belongs to one of its UIDs. -/
theorem run_uids_att_uid (env : BruteEnv) (d mu : Nat) (shares : List String) :
    ∀ (uids : List Nat) (wl : List String) (x : Nat × String),
      x ∈ (run_uids env d mu shares uids wl).2.2 → x.1 ∈ uids := by
  intro uids
  induction uids with
  | nil => intro wl x hx; cases hx
  | cons u us IH =>
    intro wl x hx
    rw [run_uids] at hx
    rcases List.mem_append.mp hx with hx1 | hx2
    · exact (share_loop_attempts env d mu u shares wl x hx1).1 ▸ List.mem_cons_self _ _
    · exact List.mem_cons_of_mem _ (IH _ x hx2)

/-- Over strictly increasing UIDs, a share whose attempt succeeded at UID
`u` is never attempted again at any later UID. -/
theorem run_uids_no_reattempt (env : BruteEnv) (d mu : Nat) (shares : List String) :
    ∀ (uids : List Nat), uids.Pairwise (· < ·) →
      ∀ (wl : List String) (u u2 : Nat) (s2 : String),
        (u, s2) ∈ (run_uids env d mu shares uids wl).2.2 →
        attemptSucceeds env d u s2 → u < u2 →
        (u2, s2) ∉ (run_uids env d mu shares uids wl).2.2 := by
  intro uids
  induction uids with
  | nil =>
    intro hpw wl u u2 s2 hmem
    cases hmem
  | cons u0 us IH =>
    intro hpw wl u u2 s2 hmem hsucc hlt hmem2
    obtain ⟨hu0, htail⟩ := List.pairwise_cons.mp hpw
    rw [run_uids] at hmem hmem2
    rcases List.mem_append.mp hmem with h1 | h1
    · have hu : u = u0 := (share_loop_attempts env d mu u0 shares wl (u, s2) h1).1
      subst hu
      have hwl : s2 ∈ (share_loop env d mu u shares wl).1 :=
        share_loop_succ_wl env d mu u shares wl s2 h1 hsucc
      rcases List.mem_append.mp hmem2 with h2 | h2
      · have : u2 = u := (share_loop_attempts env d mu u shares wl (u2, s2) h2).1
        omega
      · exact (run_uids_skip env d mu shares us _ s2 hwl).2 u2 h2
    · have humem : u ∈ us := run_uids_att_uid env d mu shares us _ (u, s2) h1
      rcases List.mem_append.mp hmem2 with h2 | h2
      · have h2u : u2 = u0 := (share_loop_attempts env d mu u0 shares wl (u2, s2) h2).1
        have : u0 < u := hu0 u humem
        omega
      · exact IH htail _ u u2 s2 h1 hsucc hlt h2

/-- C2: over a whole brute-force run, every share is reported
successfully (`logger.success`) at most once, and once a share's
mount-and-walk attempt succeeds at UID `u`, the share is whitelisted and
no attempt on it is ever issued at any later UID (first successful UID
wins). -/
theorem claim_C2 (env : BruteEnv) (aub mu : Nat) (shares : List String) (d : Nat)
    (s : String) (u u2 : Nat) :
    countSuccess s (list_exported_shares env aub mu shares d).1 ≤ 1
    ∧ ((u, s) ∈ (list_exported_shares env aub mu shares d).2 →
        attemptSucceeds env d u s → u < u2 →
        (u2, s) ∉ (list_exported_shares env aub mu shares d).2) := by
  constructor
  · rw [list_exported_shares]
    simp only [countSuccess, List.countP_cons]
    have hh : (decide ((if aub ≠ 0 then
        LogEvent.display ("Enumerating NFS Shares up to UID " ++ toString mu)
      else
        LogEvent.display ("Enumerating NFS Shares with UID " ++ toString mu)) =
        LogEvent.success s)) = false := by
      split
      · rfl
      · rfl
    rw [hh]
    simpa using run_uids_count env d mu shares (List.range (mu + 1)) [] s
  · intro hmem hsucc hlt
    rw [list_exported_shares] at hmem ⊢
    exact run_uids_no_reattempt env d mu shares (List.range (mu + 1))
      (List.pairwise_lt_range (mu + 1)) [] u u2 s hmem hsucc hlt

/-- Brute-force environment realising the spec's scenario: `/backup`
mounts at every UID, `/data` is rejected at UID 0 and mounts from UID 1
on; every walk of a mounted share succeeds. -/
def envW : BruteEnv :=
  { mnt := fun uid share =>
      if share = "/backup" then Except.ok 1
      else if uid = 0 then Except.error "RPC_AUTH_ERROR: AUTH_REJECTEDCRED"
      else Except.ok 2,
    fs := fun _ => ⟨fun _ => ReaddirResult.ok [], fun _ => oracleRWX⟩ }

/-- C2 witness: in the concrete scenario, `/backup` succeeds at UID 0 and
is not attempted again at UID 1. -/
theorem claim_C2_witness :
    (1, "/backup") ∉ (list_exported_shares envW 1 1 ["/data", "/backup"] 0).2 :=
  (claim_C2 envW 1 1 ["/data", "/backup"] 0 "/backup" 0 1).2 (by decide)
    ⟨1, rfl, some [⟨"/backup/", true, true, true⟩], rfl⟩ (by decide)

/-- Environment where every mount attempt is rejected. -/
def envFail : BruteEnv :=
  { mnt := fun _ _ => Except.error "RPC_AUTH_ERROR: AUTH_REJECTEDCRED",
    fs := fun _ => ⟨fun _ => ReaddirResult.ok [], fun _ => oracleRWX⟩ }

/-- C4 counterexample: with `max_uid = 1`, every attempt on `/data` fails
with an auth rejection, yet the log contains no `fail`/`exception` line at
all (the claim says reporting is suppressed only when `max_uid == 0`);
with `max_uid = 0` the same failure IS reported (the claim says it is
suppressed there).  The code's condition is `if not max_uid:` — exactly
inverted with respect to the claim. -/
theorem claim_C4_counterexample :
    (list_exported_shares envFail 1 1 ["/data"] 0).1 =
      [LogEvent.display "Enumerating NFS Shares up to UID 1"]
    ∧ (list_exported_shares envFail 0 0 ["/data"] 0).1 =
      [LogEvent.display "Enumerating NFS Shares with UID 0",
        LogEvent.fail "/data - RPC Access denied"] := by
  constructor
  · rfl
  · rfl

/-- With `max_uid ≠ 0` the whole UID loop emits no failure reporting. -/
theorem run_uids_failures (env : BruteEnv) (d mu : Nat) (shares : List String)
    (hmu : mu ≠ 0) :
    ∀ (uids : List Nat) (wl : List String),
      ∀ ev ∈ (run_uids env d mu shares uids wl).2.1, isFailureEvent ev = false := by
  intro uids
  induction uids with
  | nil => intro wl ev hev; cases hev
  | cons u us IH =>
    intro wl ev hev
    rw [run_uids] at hev
    rcases List.mem_append.mp hev with hev1 | hev2
    · exact share_loop_failures env d mu u hmu shares wl ev hev1
    · exact IH _ ev hev2

/-- C4 amended: failure classification and reporting happen exactly when
`max_uid = 0` (non-brute-force run) and are suppressed for every
`max_uid ≠ 0`: in that case the whole run emits no `fail`/`exception`
event whatsoever. -/
theorem claim_C4_amended (mu : Nat) (share msg : String) :
    (mu = 0 → classify_failure mu share msg ≠ [])
    ∧ (mu ≠ 0 → classify_failure mu share msg = [])
    ∧ (∀ (env : BruteEnv) (aub : Nat) (shares : List String) (d : Nat), mu ≠ 0 →
        ∀ ev ∈ (list_exported_shares env aub mu shares d).1, isFailureEvent ev = false) := by
  refine ⟨(classify_failure_iff mu share msg).1, (classify_failure_iff mu share msg).2, ?_⟩
  intro env aub shares d hmu ev hev
  rw [list_exported_shares] at hev
  rcases List.mem_cons.mp hev with rfl | hev2
  · split
    · rfl
    · rfl
  · exact run_uids_failures env d mu shares hmu (List.range (mu + 1)) [] ev hev2

/-- C4 witness: at `max_uid = 0` the classifier does report. -/
theorem claim_C4_witness : classify_failure 0 "/s" "boom" ≠ [] :=
  (claim_C4_amended 0 "/s" "boom").1 rfl
